import Mathlib

/-!
Verification development for the soapy SOAP-client library.

Shallow embedding of the WSDL/XSD type-resolution model and the envelope
marshalling engine: each definition below is translated from the Python
source (file and symbol named in its doc comment).  Theorems at the end of
the file settle the frozen claims C1..C10 against these definitions.
-/

namespace Soapy

/-! ## Shared helpers

Python string primitives, implemented by structural recursion on the
character list so that concrete witnesses evaluate inside the kernel. -/

/-- Replace every occurrence of the single character `c` by `rep`,
left to right — Python `str.replace` for a one-character pattern (the only
shape the source uses: `&`, `<`, `>`). -/
def replaceChar (c : Char) (rep : List Char) : List Char → List Char
  | [] => []
  | x :: rest => (if x = c then rep else [x]) ++ replaceChar c rep rest

/-- Python `str.replace` with a one-character pattern. -/
def pyReplace1 (s : String) (c : Char) (rep : String) : String :=
  String.mk (replaceChar c rep.data s.data)

/-- `xml.sax.saxutils.escape`: replaces `&` first, then `<`, then `>`
(each replacement applies to all occurrences). -/
def saxEscape (s : String) : String :=
  pyReplace1 (pyReplace1 (pyReplace1 s '&' "&amp;") '<' "&lt;") '>' "&gt;"

/-- Substring occurrence on character lists. -/
def containsSubL (needle : List Char) : List Char → Bool
  | [] => needle.isEmpty
  | c :: rest => needle.isPrefixOf (c :: rest) || containsSubL needle rest

/-- Python's `needle in haystack` substring test. -/
def containsSub (hay needle : String) : Bool :=
  containsSubL needle.data hay.data

/-- Python `str.strip()`: drop leading and trailing whitespace. -/
def pyStrip (s : String) : String :=
  String.mk
    (((s.data.dropWhile Char.isWhitespace).reverse.dropWhile
        Char.isWhitespace).reverse)

/-- Decimal digit accumulation; `none` on the empty string or any
non-digit character. -/
def digitsVal (l : List Char) : Option Nat :=
  if l.isEmpty then
    none
  else
    l.foldl (fun acc c =>
      match acc with
      | none => none
      | some a => if c.isDigit then some (a * 10 + (c.toNat - 48)) else none)
      (some 0)

/-- Python `int(s)` on a decimal string: optional surrounding whitespace,
optional sign, then digits; any other shape raises (modelled as `none`). -/
def pyInt (s : String) : Option Int :=
  match ((s.data.dropWhile Char.isWhitespace).reverse.dropWhile
      Char.isWhitespace).reverse with
  | '-' :: ds => (digitsVal ds).map (fun n => -(n : Int))
  | '+' :: ds => (digitsVal ds).map (fun n => (n : Int))
  | ds => (digitsVal ds).map (fun n => (n : Int))

/-! ## C1: SOAP version validation and the envelope namespace

`soapy/wsdl/__init__.py`, `Wsdl.version` (lines 63-72) and
`soapy/marshal.py`, `Envelope.soap_ns` (lines 105-108).

SOAP versions are Python floats (`1.1`, `1.2`); we model the version
values as rationals, which is exact for the decimal literals involved. -/

/-- `Wsdl.supported_versions = (1.1, 1.2)`. -/
def supportedVersions : List ℚ := [11/10, 12/10]

/-- `Wsdl.version` setter: `if float(ver) not in self.supported_versions:
raise ValueError(...)` else store `float(ver)`. -/
def wsdlVersionSet (ver : ℚ) : Except String ℚ :=
  if ver ∈ supportedVersions then
    Except.ok ver
  else
    Except.error "Supported versions include only (1.1, 1.2)"

/-- `Envelope.soap_ns` (marshal.py lines 105-108): registers
`used_ns["soapenv"] = "http://schemas.xmlsoap.org/soap/envelope/"` and
returns the prefix `"soapenv"`.  The property takes no version input:
the marshaller never consults `Wsdl.version`. -/
def envelopeSoapNsEntry : String × String :=
  ("soapenv", "http://schemas.xmlsoap.org/soap/envelope/")

/-- The `xmlns:soapenv` declaration the rendered Envelope carries, as a
function of the configured version.  `Envelope.render` emits
`xmlns:{key}="{value}"` for every `used_ns` entry, and the only `soapenv`
entry is the one written by `soap_ns`; the version parameter is unused
because the source never threads it into the marshaller. -/
def renderedSoapNsDecl (_version : ℚ) : String × String :=
  envelopeSoapNsEntry

/-! ## C5: input-node classification

`soapy/inputs.py`, `Factory._select_class` (lines 419-441) and
`soapy/client.py`, `InputOptions.__init__` (lines 519-532). -/

/-- The four input-node kinds produced by `Factory._select_class`. -/
inductive InputClass where
  | element
  | repeatable
  | container
  | collection
  deriving DecidableEq, Repr

/-- `repeatable` flag: `element.max_occurs == "unbounded" or
int(element.max_occurs) > 1`.  Python's `or` short-circuits, so `int` is
only evaluated (and can only raise, modelled as `none`) when the string is
not `"unbounded"`. -/
def repeatableFlag (maxOccurs : String) : Option Bool :=
  if maxOccurs == "unbounded" then
    some true
  else
    (pyInt maxOccurs).map (fun k => k > 1)

/-- `setable` flag: `len(element.element_children) == 0`. -/
def setableFlag (numElementChildren : Nat) : Bool :=
  numElementChildren == 0

/-- `Factory._select_class`: the `switch` dictionary keyed on
`(setable, repeatable)`. -/
def selectClassSwitch (setable repeatable : Bool) : InputClass :=
  match setable, repeatable with
  | true, false => InputClass.element
  | true, true => InputClass.repeatable
  | false, false => InputClass.container
  | false, true => InputClass.collection

/-- `Factory._select_class` end to end: compute the two booleans from the
schema element's `max_occurs` and its number of element children, then
dispatch through the switch.  `none` models the `int()` exception on an
unparsable `max_occurs`. -/
def selectClass (maxOccurs : String) (numElementChildren : Nat) :
    Option InputClass :=
  (repeatableFlag maxOccurs).map
    (fun rep => selectClassSwitch (setableFlag numElementChildren) rep)

/-- `InputOptions.__init__` (client.py): computes the same two flags for
each recorded element (`is_repeatable`, `setable`) before constructing the
`InputElement`. -/
def clientInputFlags (maxOccurs : String) (numElementChildren : Nat) :
    Option (Bool × Bool) :=
  (repeatableFlag maxOccurs).map
    (fun rep => (setableFlag numElementChildren, rep))

/-! ## C8: Binding construction validation

`soapy/wsdl/model.py`, `Binding.__init__` (lines 52-64). -/

/-- `Binding.__init__` style validation:
`if not soapBinding.get('style', "document") == "document": raise
TypeError(...)`.  `styleAttr = none` models an absent `style` attribute,
for which `Tag.get` supplies the default `"document"`. -/
def bindingInit (styleAttr : Option String) : Except String Unit :=
  if (styleAttr.getD "document") == "document" then
    Except.ok ()
  else
    Except.error
      "Binding style not set to document. Soapy can't handle non-document styles"

/-! ## C10: value setters

`soapy/inputs.py`, `Element.value` setter (lines 186-201) and
`soapy/client.py`, `InputElement.value` setter (lines 645-660).

The stored value starts as `none` (Python `None`) and holds either a
boolean or an arbitrary (string) payload once set. -/

/-- A Python value assigned to an input element: `None` is `none`; `True`
and `False` are the boolean constructors; everything else is carried as an
opaque payload. -/
inductive PyVal where
  | pyBool (b : Bool)
  | pyStr (s : String)
  deriving DecidableEq, Repr

/-- `inputs.Element.value` setter: `if value is not None:` then convert
`True`/`False` to the literal strings `"true"`/`"false"`, otherwise store
the value; on `None` nothing is stored.  Returns the new stored value
given the current one. -/
def inputsElementSetValue (stored : Option PyVal) (value : Option PyVal) :
    Option PyVal :=
  match value with
  | none => stored
  | some (PyVal.pyBool true) => some (PyVal.pyStr "true")
  | some (PyVal.pyBool false) => some (PyVal.pyStr "false")
  | some v => some v

/-- `client.InputElement.value` setter: `if self.setable: if value is not
None: self.__value = value` (no boolean conversion) `else: raise
TypeError`.  The `Except` error models the TypeError on a non-setable
element. -/
def clientInputElementSetValue (setable : Bool) (stored : Option PyVal)
    (value : Option PyVal) : Except String (Option PyVal) :=
  if setable then
    match value with
    | none => Except.ok stored
    | some v => Except.ok (some v)
  else
    Except.error "Can't set value of element"

/-! ## Schema element model (C2, C3)

`soapy/wsdl/types.py`, `TypeElement` (lines 127-216): the schema element's
rendering-relevant attributes, each read from the underlying XML tag with
the source's defaults, plus the settable `min_occurs` override. -/

/-- Rendering-relevant view of a `TypeElement`.  `minOccursAttr` etc. are
the raw XML attributes (`none` = attribute absent); `minOccursOverride`
models the `min_occurs` property setter's private `__min_occurs`. -/
structure TypeElement where
  elName : String
  minOccursAttr : Option String := none
  minOccursOverride : Option String := none
  maxOccursAttr : Option String := none
  nillableAttr : Option String := none
  formAttr : Option String := none
  deriving DecidableEq, Repr

/-- `TypeElement.min_occurs`: the override if the setter was used,
otherwise `bs_element.get("minOccurs", "1")`. -/
def TypeElement.min_occurs (e : TypeElement) : String :=
  e.minOccursOverride.getD (e.minOccursAttr.getD "1")

/-- `TypeElement.min_occurs` setter: stores `str(value)`. -/
def TypeElement.setMinOccurs (e : TypeElement) (value : String) : TypeElement :=
  { e with minOccursOverride := some value }

/-- `TypeElement.nillable`: `bs_element.get("nillable", "false")`. -/
def TypeElement.nillable (e : TypeElement) : String :=
  e.nillableAttr.getD "false"

/-- `TypeElement.max_occurs`: `bs_element.get("maxOccurs", "1")`. -/
def TypeElement.max_occurs (e : TypeElement) : String :=
  e.maxOccursAttr.getD "1"

/-- `TypeElement.form`: `bs_element.get("form", "qualified")`. -/
def TypeElement.form (e : TypeElement) : String :=
  e.formAttr.getD "qualified"

/-! ## C2: null/omission rule and render_empty

`soapy/marshal.py`, `Element._process_null_values` (lines 292-308) and
`soapy/inputs.py`, `RenderOptionsMixin.render_empty` (lines 121-129). -/

/-- `Element._process_null_values`: when the input value is `None`
(`value = none`), choose the null rendering of the already-built open tag
and return it (`some xml` models `return True` with `self.__xml` set);
otherwise do nothing (`none` models `return False`).  The source replaces
the `>` of the open tag; `parent.xml_ns` is always the prefix `"xsi"`. -/
def processNullValues (value : Option String) (defn : TypeElement)
    (openTag : String) : Option String :=
  match value with
  | some _ => none
  | none =>
    if defn.min_occurs == "0" then
      some ""
    else if defn.nillable == "true" then
      some (pyReplace1 openTag '>' " xsi:nil=\"true\" />\n")
    else
      some (pyReplace1 openTag '>' "/>\n")

/-- The ownership chain of an input node, bottom node first: each node
carries its schema-element reference (`ref`) and whether its class mixes in
`RenderOptionsMixin` (true for `Element`, `Container` and `Collection`;
false for plain `Repeatable`). -/
inductive InputChain where
  | root (mixin : Bool) (ref : TypeElement)
  | child (mixin : Bool) (ref : TypeElement) (parent : InputChain)
  deriving DecidableEq, Repr

/-- The node's own schema-element reference. -/
def InputChain.ref : InputChain → TypeElement
  | .root _ r => r
  | .child _ r _ => r

/-- Whether the node's class mixes in `RenderOptionsMixin`. -/
def InputChain.mixin : InputChain → Bool
  | .root m _ => m
  | .child m _ _ => m

/-- `RenderOptionsMixin.render_empty`: sets `self.ref.min_occurs = "1"`
and, when the parent is also a `RenderOptionsMixin`, recurses into it. -/
def renderEmpty : InputChain → InputChain
  | .root m r => .root m (r.setMinOccurs "1")
  | .child m r p =>
    .child m (r.setMinOccurs "1") (if p.mixin then renderEmpty p else p)

/-! ## C3: tag qualification

`soapy/marshal.py`, `Element.render_open_tag` (lines 355-370) and the
close-tag construction in `Element.render` (lines 400-405). -/

/-- The qualification test used verbatim for both the open tag (line 358)
and the close tag (line 402): `(self.parent.schema.element_form ==
"qualified" and self.definition.form == "qualified") or self.__top_level`. -/
def tagQualified (elementForm form : String) (topLevel : Bool) : Bool :=
  (elementForm == "qualified" && form == "qualified") || topLevel

/-- `Element.render_open_tag`: build `<tns:name` or `<name` according to
the qualification test, append ` attr="value"` for every schema attribute
whose input value is non-null (in schema declaration order), then `>`. -/
def renderOpenTag (elementForm form : String) (topLevel : Bool)
    (tns name : String) (attrs : List (String × Option String)) : String :=
  let base :=
    if tagQualified elementForm form topLevel then
      "<" ++ tns ++ ":" ++ pyStrip name
    else
      "<" ++ pyStrip name
  let withAttrs := attrs.foldl (fun acc a =>
    match a.snd with
    | some v => acc ++ " " ++ a.fst ++ "=\"" ++ v ++ "\""
    | none => acc) base
  withAttrs ++ ">"

/-- Close-tag construction in `Element.render`: `</tns:name>\n` or
`</name>\n`, mirroring the open tag's qualification decision. -/
def renderCloseTag (elementForm form : String) (topLevel : Bool)
    (tns name : String) : String :=
  if tagQualified elementForm form topLevel then
    "</" ++ tns ++ ":" ++ pyStrip name ++ ">\n"
  else
    "</" ++ pyStrip name ++ ">\n"

/-! ## C7: repeatable and collection value rendering

`soapy/marshal.py`, `Element._process_iter_values` (lines 319-330) and
`Element._process_collection_values` (lines 332-353). -/

/-- `Element._process_iter_values`: `for each in iter: self.__xml +=
self.open_tag + escape(str(each)) + self.close_tag`, starting from the
empty `__xml`. -/
def processIterValues (openTag closeTag : String) (values : List String) :
    String :=
  values.foldl (fun acc v => acc ++ openTag ++ saxEscape v ++ closeTag) ""

/-- One round of the `while` loop in `_process_collection_values`: pop the
last element (`list.pop()`) of every per-key list; `none` models the
`IndexError` (some list exhausted) that sets `done` and breaks before a
group is emitted. -/
def popAll : List (String × List String) →
    Option (List (String × String) × List (String × List String))
  | [] => some ([], [])
  | (k, vs) :: rest =>
    match vs.getLast? with
    | none => none
    | some v =>
      match popAll rest with
      | none => none
      | some (g, rs) => some ((k, v) :: g, (k, vs.dropLast) :: rs)

/-- The `while not done` loop of `_process_collection_values`, fuel-bounded:
each successful round pops one value from every list, then the per-round
group is emitted. -/
def collectionRoundsAux : Nat → List (String × List String) →
    List (List (String × String))
  | 0, _ => []
  | n + 1, coll =>
    match popAll coll with
    | none => []
    | some (g, coll') => g :: collectionRoundsAux n coll'

/-- The sequence of per-round value groups produced by
`_process_collection_values`.  The loop is only entered when the collection
has at least one key (guard at marshal.py line 413), and each round shrinks
every list by one, so the first list's length plus one is exact fuel: the
loop always stops by itself before the fuel does. -/
def collectionRounds (first : String × List String)
    (rest : List (String × List String)) : List (List (String × String)) :=
  collectionRoundsAux (first.2.length + 1) (first :: rest)

/-! ## C9: Response truthiness and output/fault slicing

`soapy/client.py`, `Response.__bool__` (lines 358-368) and
`Response.__init__` (lines 320-351). -/

/-- `requests.Response.ok`: true iff `raise_for_status()` would not raise,
i.e. iff the status code is below 400. -/
def respOk (statusCode : Nat) : Bool :=
  decide (statusCode < 400)

/-- `Response.isXml`: false when the `Content-Type` header is missing,
otherwise Python's `"xml" in content_type` substring test. -/
def responseIsXml (contentType : Option String) : Bool :=
  match contentType with
  | none => false
  | some ct => containsSub ct "xml"

/-- `Response.__bool__`.  Each fault tag is represented by its bs4
emptiness flag; `isSelfClosing` and `is_empty_element` are aliases of the
same bs4 property, hence the same boolean is tested twice, as in
`not each.isSelfClosing and not each.is_empty_element`. -/
def responseBool (statusCode : Nat) (contentType : Option String)
    (faults : List Bool) (numOutputs : Nat) : Bool :=
  if !(respOk statusCode) then false
  else if !(responseIsXml contentType) then false
  else if faults.any (fun isEmpty => !isEmpty && !isEmpty) then false
  else if numOutputs == 0 then false
  else true

/-- The slicing loops of `Response.__init__`: for each declared part name,
take the first tag of that name in the parsed response
(`self.bsResponse(name)[0]`), and on `IndexError` (no such tag) skip it.
`present` lists the response's tags as (name, is_empty_element). -/
def sliceParts (declared : List String) (present : List (String × Bool)) :
    List Bool :=
  declared.filterMap
    (fun n => (present.find? (fun p => p.fst == n)).map (fun p => p.snd))

/-- The failure condition exactly as claim C9 words it (spec-side
definition, used only to exhibit the divergence): non-2xx HTTP status, or
content type not containing xml, or some declared fault element present
and non-empty, or no expected output element found. -/
def claimCallFailed (statusCode : Nat) (contentType : Option String)
    (faults : List Bool) (numOutputs : Nat) : Bool :=
  !(decide (200 ≤ statusCode ∧ statusCode < 300)) ||
    !(responseIsXml contentType) ||
    faults.any (fun isEmpty => !isEmpty) ||
    numOutputs == 0

/-! ## Schema type-graph model (C4, C6)

`soapy/wsdl/types.py`: nodes of the parsed `<types>` content.  A node is
either an element declaration (`TypeElement`) or a container
(`TypeContainer`: sequence, complexType, ...).  Underlying XML tags are
identified by numeric ids; `typeRef` is the element's `type` attribute and
is resolved against the set of named type definitions (`Env`), modelling
`find_type_by_name`. -/

/-- A schema node: its underlying tag id, its literal structural children,
and (for elements) the optional `type` attribute. -/
inductive STree where
  | elem (tag : Nat) (typeRef : Option String) (kids : List STree)
  | cont (tag : Nat) (kids : List STree)

/-- The underlying tag id of a node. -/
def STree.tag : STree → Nat
  | .elem t _ _ => t
  | .cont t _ => t

mutual

/-- Structural size of a node (for termination bounds). -/
def STree.size : STree → Nat
  | .elem _ _ kids => 1 + STree.sizeList kids
  | .cont _ kids => 1 + STree.sizeList kids

/-- Total size of a list of nodes. -/
def STree.sizeList : List STree → Nat
  | [] => 0
  | c :: rest => STree.size c + STree.sizeList rest

end

mutual

/-- All tag ids occurring in a node. -/
def STree.tags : STree → List Nat
  | .elem t _ kids => t :: STree.tagsList kids
  | .cont t kids => t :: STree.tagsList kids

/-- All tag ids occurring in a list of nodes. -/
def STree.tagsList : List STree → List Nat
  | [] => []
  | c :: rest => STree.tags c ++ STree.tagsList rest

end

/-- The named type definitions visible to `find_type_by_name`: pairs of
qualified type name and the definition's node. -/
abbrev Env : Type := List (String × STree)

/-- `find_type_by_name` restricted to what C4/C6 need: look the name up
among the loaded schemas' definitions; `none` models a resolution miss
(returned, not raised). -/
def softLookup (env : Env) (t : String) : Option STree :=
  (List.find? (fun p => p.fst == t) env).map (fun p => p.snd)

/-! ## C4: recursion guards in element_children

`soapy/wsdl/types.py`, `TypeBase._process_element_children` (lines 30-72)
and `TypeElement.children` (lines 204-216).

The per-tag reference counter read at types.py line 213
(`self.bs_element.counter < 2`) has no maintainer in `src/`; the counter
update is modelled from the spec: "this lookup must not be re-entered more
than once for the same underlying tag to prevent infinite recursion on
self-referential schema types (tracked via a per-tag reference counter)".
We bump the tag's counter each time the element's soft-child lookup
resolves. -/

/-- Per-tag reference counters. -/
abbrev Counters : Type := Nat → Nat

/-- Increment one tag's counter. -/
def bumpCnt (cnt : Counters) (t : Nat) : Counters :=
  fun u => if u = t then cnt u + 1 else cnt u

/-- `TypeElement.children` (types.py lines 204-216): the literal structural
children, plus — when the `type` attribute is present, the named type
resolves, and the element tag's reference counter is still below 2 — the
resolved soft child appended at the end.  Containers
(`TypeContainer.children`) have only their literal children.  Returns the
children together with the updated counters (spec-modelled bump, see
section comment). -/
def elemChildrenTrees (env : Env) (cnt : Counters) :
    STree → List STree × Counters
  | .elem tag tref kids =>
    match tref with
    | none => (kids, cnt)
    | some tname =>
      match softLookup env tname with
      | none => (kids, cnt)
      | some s =>
        ((if cnt tag < 2 then kids ++ [s] else kids), bumpCnt cnt tag)
  | .cont _ kids => (kids, cnt)

/-- `TypeBase._process_element_children`: flatten a node's children into
its `Element`-kind descendants.  `selfTag` is the tag of the node whose
children are being iterated; `parents` is the shared visited-tags list
(Python mutates one list in place, so it is threaded through and returned).
An element child is kept only if its tag is not already in `parents`; for a
container child the iterating node's own tag is appended to `parents` and
the container is flattened recursively. -/
def processEC (selfTag : Nat) (parents : List Nat) :
    List STree → List STree × List Nat
  | [] => ([], parents)
  | STree.elem t tref kids :: rest =>
    let keep : List STree :=
      if parents.contains t then [] else [STree.elem t tref kids]
    let (rs, ps) := processEC selfTag parents rest
    (keep ++ rs, ps)
  | STree.cont t kids :: rest =>
    let (inner, ps1) := processEC t (parents ++ [selfTag]) kids
    let (rs, ps2) := processEC selfTag ps1 rest
    (inner ++ rs, ps2)
termination_by l => STree.sizeList l
decreasing_by
  all_goals simp [STree.sizeList, STree.size]
  all_goals omega

/-- `TypeBase.element_children`: flatten the node's own children starting
from the visited stack `[self.bs_element]` (types.py line 71). -/
def elementChildren (env : Env) (cnt : Counters) (e : STree) :
    List STree × Counters :=
  let (kidTrees, cnt1) := elemChildrenTrees env cnt e
  ((processEC e.tag [e.tag] kidTrees).fst, cnt1)

mutual

/-- `Factory._recursive_extract_elements` (inputs.py lines 443-456),
fuel-bounded: record the `(element, parent)` pair, then recurse into each
of the element's `element_children`, skipping a child whose underlying tag
is the element's own tag.  `none` models exhausting the recursion-depth
fuel; the C4 theorem shows an explicit fuel bound at which this never
happens. -/
def extractF (env : Env) : Nat → Counters → STree → Option STree →
    Option (List (STree × Option STree) × Counters)
  | 0, _, _, _ => none
  | fuel + 1, cnt, e, parent =>
    let (ec, cnt1) := elementChildren env cnt e
    let kids := ec.filter (fun c => c.tag != e.tag)
    match extractListF env fuel cnt1 kids e with
    | none => none
    | some (rs, cnt2) => some ((e, parent) :: rs, cnt2)

/-- Extract each child in order, threading the counters. -/
def extractListF (env : Env) : Nat → Counters → List STree → STree →
    Option (List (STree × Option STree) × Counters)
  | _, cnt, [], _ => some ([], cnt)
  | fuel, cnt, c :: rest, parent =>
    match extractF env fuel cnt c (some parent) with
    | none => none
    | some (r1, cnt1) =>
      match extractListF env fuel cnt1 rest parent with
      | none => none
      | some (r2, cnt2) => some (r1 ++ r2, cnt2)

end

/-- Remaining soft-lookup budget over a finite tag universe: each tag may
be resolved at most twice before the counter guard closes it. -/
def budget (uni : List Nat) (cnt : Counters) : Nat :=
  (uni.map (fun t => 2 - cnt t)).sum

/-- Largest definition size in the environment. -/
def envMaxSize (env : Env) : Nat :=
  env.foldr (fun p acc => max (STree.size p.snd) acc) 0

/-- Termination measure for the extraction walk: every recursive step
either strictly shrinks the current subtree (literal child) or strictly
spends soft-lookup budget (type-resolved child). -/
def extMeasure (uni : List Nat) (env : Env) (cnt : Counters)
    (e : STree) : Nat :=
  budget uni cnt * (envMaxSize env + 1) + STree.size e

/-- All tags of the environment's definitions lie in the universe. -/
def envGood (env : Env) (uni : List Nat) : Prop :=
  ∀ p ∈ env, ∀ x ∈ STree.tags p.snd, x ∈ uni

/-- All tags of a tree lie in the universe. -/
def treeGood (uni : List Nat) (e : STree) : Prop :=
  ∀ x ∈ STree.tags e, x ∈ uni

/-! ## C6: Extension and Restriction children

`soapy/wsdl/types.py`, `Extension.children` (lines 260-279) and
`Restriction.children` (lines 293-307).

Children lists at this level are `List (Option STree)` because
`type_factory` maps `attribute`/`any` tags to `None`, and a failed base
lookup is itself appended as `None`. -/

/-- `Extension.children`: `children` is `[find_type_by_name(base)]` when
the `base` attribute exists (the `KeyError` of a missing attribute is
caught and leaves it empty).  The loop
`for i, child in enumerate(super_children): if child == self: break` never
breaks — a node is not among its own freshly constructed children and these
classes use identity equality — so `i` ends as the last index and
`super_children[i:i] = children` splices the base in before the **last**
literal child.  When `super_children` is empty the loop body never runs and
the splice raises `NameError` (`i` unbound), modelled as `none`. -/
def extensionChildren (env : Env) (baseAttr : Option String)
    (superChildren : List (Option STree)) : Option (List (Option STree)) :=
  let children : List (Option STree) :=
    match baseAttr with
    | none => []
    | some b => [softLookup env b]
  match superChildren with
  | [] => none
  | _ :: _ =>
    let i := superChildren.length - 1
    some (superChildren.take i ++ children ++ superChildren.drop i)

/-- `Restriction.children`: exclusively `[find_type_by_name(base)]` when
the `base` attribute exists, empty otherwise; the literal children are
never consulted. -/
def restrictionChildren (env : Env) (baseAttr : Option String) :
    List (Option STree) :=
  match baseAttr with
  | none => []
  | some b => [softLookup env b]

/-! ## Claim-side specifications (C7)

Definitions written from the claim's wording, used to compare the source
functions against the stated laws. -/

/-- C7's stated law for a Repeatable element: one sibling tag per value,
all sharing the same tag pair, in iteration order, each carrying its own
escaped value. -/
def repeatableXmlSpec (openTag closeTag : String) : List String → String
  | [] => ""
  | v :: vs => openTag ++ saxEscape v ++ closeTag ++
      repeatableXmlSpec openTag closeTag vs

/-- The minimum of the per-key list lengths of a (non-empty) collection,
given as first key plus rest. -/
def collMinLen (first : String × List String)
    (rest : List (String × List String)) : Nat :=
  rest.foldl (fun acc p => min acc p.2.length) first.2.length

/-! ## Theorems settling the claims -/

/-- C1: configuring version 1.1 or 1.2 passes the hard validation and any
other version (e.g. 1.5) raises at configuration time, but the rendered
Envelope's `soapenv` namespace declaration is the SOAP 1.1 URI regardless
of the configured version — `Envelope.soap_ns` hard-codes it and the
marshaller never reads `Wsdl.version` — so a 1.2-configured client does
not get the `http://www.w3.org/2003/05/soap-envelope` declaration the
claim (and the repository's own `local_tests.py`) requires. -/
theorem c1_soap_version_envelope_namespace :
    wsdlVersionSet (11/10) = Except.ok (11/10) ∧
    wsdlVersionSet (12/10) = Except.ok (12/10) ∧
    wsdlVersionSet (15/10) =
      Except.error "Supported versions include only (1.1, 1.2)" ∧
    renderedSoapNsDecl (12/10) =
      ("soapenv", "http://schemas.xmlsoap.org/soap/envelope/") ∧
    ("http://schemas.xmlsoap.org/soap/envelope/" : String) ≠
      "http://www.w3.org/2003/05/soap-envelope" := by
  refine ⟨?_, ?_, ?_, rfl, by decide⟩ <;>
    norm_num [wsdlVersionSet, supportedVersions]

/-- C5: the input-node kind is decided by exactly the two booleans —
`repeatable` true iff `max_occurs` is `"unbounded"` or parses to an
integer greater than one, `setable` true iff there are zero element
children — through the four-way switch `(setable, repeatable) ↦
Element/Repeatable/Container/Collection`; `InputOptions.__init__`
(client.py) computes the same pair of flags. -/
theorem c5_input_class_mapping (maxOccurs : String) (n : Nat) (rep : Bool)
    (hrep : repeatableFlag maxOccurs = some rep) :
    (rep = true ↔
      (maxOccurs = "unbounded" ∨ ∃ k : Int, pyInt maxOccurs = some k ∧ 1 < k)) ∧
    selectClass maxOccurs n = some (selectClassSwitch (n == 0) rep) ∧
    selectClassSwitch true false = InputClass.element ∧
    selectClassSwitch true true = InputClass.repeatable ∧
    selectClassSwitch false false = InputClass.container ∧
    selectClassSwitch false true = InputClass.collection ∧
    clientInputFlags maxOccurs n = some (n == 0, rep) := by
  refine ⟨?_, ?_, rfl, rfl, rfl, rfl, ?_⟩
  · unfold repeatableFlag at hrep
    by_cases hu : maxOccurs = "unbounded"
    · simp [hu] at hrep
      simp [hu, ← hrep]
    · have hu' : (maxOccurs == "unbounded") = false := by
        simp [hu]
      simp [hu'] at hrep
      obtain ⟨k, hk, hrepk⟩ := hrep
      constructor
      · intro h
        exact Or.inr ⟨k, hk, by rw [h] at hrepk; simpa using hrepk.symm⟩
      · rintro (h | ⟨k', hk', hlt⟩)
        · exact absurd h hu
        · rw [hk] at hk'
          obtain rfl : k = k' := by injection hk'
          rw [← hrepk]
          simpa using hlt
  · unfold selectClass setableFlag
    rw [hrep]
    rfl
  · unfold clientInputFlags setableFlag
    rw [hrep]
    rfl

/-- C5 witness: `maxOccurs = "2"` with zero children classifies as
Repeatable. -/
theorem c5_input_class_mapping_witness :
    repeatableFlag "2" = some true ∧
    selectClass "2" 0 = some (selectClassSwitch (0 == 0) true) :=
  ⟨by decide, (c5_input_class_mapping "2" 0 true (by decide)).2.1⟩

/-- C8: `Binding` construction succeeds when the soap binding `style`
attribute is absent (defaulting to `"document"`) or equal to
`"document"`, and fails immediately with the distinguishable TypeError
message for every other style value. -/
theorem c8_binding_style_validation (style : String)
    (h : style ≠ "document") :
    bindingInit none = Except.ok () ∧
    bindingInit (some "document") = Except.ok () ∧
    bindingInit (some style) =
      Except.error
        "Binding style not set to document. Soapy can't handle non-document styles" := by
  refine ⟨rfl, rfl, ?_⟩
  unfold bindingInit
  simp [h]

/-- C8 witness: an rpc-style binding fails construction. -/
theorem c8_binding_style_validation_witness :
    ("rpc" : String) ≠ "document" ∧
    bindingInit (some "rpc") =
      Except.error
        "Binding style not set to document. Soapy can't handle non-document styles" :=
  ⟨by decide, (c8_binding_style_validation "rpc" (by decide)).2.2⟩

/-- C10: assigning `None` to a setable input element's value is a no-op in
both value setters (inputs.py `Element.value` and client.py
`InputElement.value`), so a stored non-None value can never be reset to
None; the inputs.py setter converts `True`/`False` to the literal strings
`"true"`/`"false"`. -/
theorem c10_none_assignment_noop :
    (∀ stored : Option PyVal, inputsElementSetValue stored none = stored) ∧
    (∀ stored : Option PyVal,
      clientInputElementSetValue true stored none = Except.ok stored) ∧
    (∀ stored : Option PyVal,
      inputsElementSetValue stored (some (PyVal.pyBool true)) =
        some (PyVal.pyStr "true")) ∧
    (∀ stored : Option PyVal,
      inputsElementSetValue stored (some (PyVal.pyBool false)) =
        some (PyVal.pyStr "false")) ∧
    (∀ (v : PyVal) (value : Option PyVal),
      ∃ w, inputsElementSetValue (some v) value = some w) := by
  refine ⟨fun _ => rfl, fun _ => rfl, fun _ => rfl, fun _ => rfl, ?_⟩
  intro v value
  match value with
  | none => exact ⟨v, rfl⟩
  | some (PyVal.pyBool true) => exact ⟨PyVal.pyStr "true", rfl⟩
  | some (PyVal.pyBool false) => exact ⟨PyVal.pyStr "false", rfl⟩
  | some (PyVal.pyStr s) => exact ⟨PyVal.pyStr s, rfl⟩

/-- C2: with no bound input value, rendering follows the three-way rule —
effective `min_occurs = "0"` omits the element entirely, otherwise
`nillable = "true"` renders a self-closing tag with `xsi:nil="true"`,
otherwise a plain self-closing tag; a present value bypasses the null
path.  `render_empty()` overrides the schema element's effective
`min_occurs` to `"1"` and propagates through `RenderOptionsMixin`
parents, turning the omitted `min_occurs = "0"` case into the plain
self-closing rendering. -/
theorem c2_null_omission_rule (defn : TypeElement) (openTag : String) :
    (defn.min_occurs = "0" → processNullValues none defn openTag = some "") ∧
    (defn.min_occurs ≠ "0" → defn.nillable = "true" →
      processNullValues none defn openTag =
        some (pyReplace1 openTag '>' " xsi:nil=\"true\" />\n")) ∧
    (defn.min_occurs ≠ "0" → defn.nillable ≠ "true" →
      processNullValues none defn openTag =
        some (pyReplace1 openTag '>' "/>\n")) ∧
    (∀ v, processNullValues (some v) defn openTag = none) ∧
    (∀ chain : InputChain, ((renderEmpty chain).ref).min_occurs = "1") ∧
    (∀ (m : Bool) (r : TypeElement) (p : InputChain), p.mixin = true →
      renderEmpty (InputChain.child m r p) =
        InputChain.child m (r.setMinOccurs "1") (renderEmpty p)) ∧
    (defn.minOccursAttr = some "0" → defn.minOccursOverride = none →
      defn.nillable ≠ "true" →
      processNullValues none defn openTag = some "" ∧
      processNullValues none
          ((renderEmpty (InputChain.root true defn)).ref) openTag =
        some (pyReplace1 openTag '>' "/>\n")) := by
  have h0 : ∀ d : TypeElement, d.min_occurs = "0" →
      processNullValues none d openTag = some "" := by
    intro d hd
    unfold processNullValues
    simp [hd]
  have h1 : ∀ d : TypeElement, d.min_occurs ≠ "0" → d.nillable = "true" →
      processNullValues none d openTag =
        some (pyReplace1 openTag '>' " xsi:nil=\"true\" />\n") := by
    intro d hd hn
    unfold processNullValues
    simp [hd, hn]
  have h2 : ∀ d : TypeElement, d.min_occurs ≠ "0" → d.nillable ≠ "true" →
      processNullValues none d openTag =
        some (pyReplace1 openTag '>' "/>\n") := by
    intro d hd hn
    unfold processNullValues
    simp [hd, hn]
  refine ⟨h0 defn, h1 defn, h2 defn, fun _ => rfl, ?_, ?_, ?_⟩
  · intro chain
    cases chain <;> rfl
  · intro m r p hp
    have hstep : renderEmpty (InputChain.child m r p) =
        InputChain.child m (r.setMinOccurs "1")
          (if p.mixin then renderEmpty p else p) := rfl
    rw [hstep, if_pos hp]
  · intro ha hov hn
    have hd0 : defn.min_occurs = "0" := by
      unfold TypeElement.min_occurs
      rw [hov, ha]
      rfl
    refine ⟨h0 defn hd0, ?_⟩
    have href : (renderEmpty (InputChain.root true defn)).ref =
        defn.setMinOccurs "1" := rfl
    rw [href]
    have hmin : (defn.setMinOccurs "1").min_occurs = "1" := rfl
    have hnil : (defn.setMinOccurs "1").nillable = defn.nillable := rfl
    exact h2 _ (by rw [hmin]; decide) (by rw [hnil]; exact hn)

/-- C2 witness: an optional (`minOccurs="0"`), non-nillable element with no
value is omitted; after `render_empty()` it renders as a plain
self-closing tag. -/
theorem c2_null_omission_rule_witness :
    (processNullValues none ⟨"blz", some "0", none, none, none, none⟩ "<blz>" =
        some "" ∧
      processNullValues none
          ((renderEmpty (InputChain.root true
            ⟨"blz", some "0", none, none, none, none⟩)).ref) "<blz>" =
        some (pyReplace1 "<blz>" '>' "/>\n")) ∧
    pyReplace1 "<blz>" '>' "/>\n" = "<blz/>\n" :=
  ⟨(c2_null_omission_rule ⟨"blz", some "0", none, none, none, none⟩
      "<blz>").2.2.2.2.2.2 rfl rfl (by decide), by decide⟩

/-- C3: the rendered open tag and close tag carry the namespace prefix
exactly when the owning schema's `elementFormDefault` and the element's
`form` are both `"qualified"`, or the element is the top-level body
element; in particular with `elementFormDefault="unqualified"` the
top-level element gets the `tns:` prefix and a nested child stays
unprefixed. -/
theorem c3_tag_qualification (ef f : String) (tl : Bool) (tns nm : String) :
    (tagQualified ef f tl = true ↔
      ((ef = "qualified" ∧ f = "qualified") ∨ tl = true)) ∧
    renderOpenTag ef f tl tns nm [] =
      (if tagQualified ef f tl then "<" ++ tns ++ ":" ++ pyStrip nm ++ ">"
       else "<" ++ pyStrip nm ++ ">") ∧
    renderCloseTag ef f tl tns nm =
      (if tagQualified ef f tl then "</" ++ tns ++ ":" ++ pyStrip nm ++ ">\n"
       else "</" ++ pyStrip nm ++ ">\n") ∧
    (ef = "unqualified" →
      renderOpenTag ef f true tns nm [] = "<" ++ tns ++ ":" ++ pyStrip nm ++ ">" ∧
      renderOpenTag ef f false tns nm [] = "<" ++ pyStrip nm ++ ">" ∧
      renderCloseTag ef f false tns nm = "</" ++ pyStrip nm ++ ">\n") := by
  have hq : ∀ b : Bool, tagQualified ef f b = true ↔
      ((ef = "qualified" ∧ f = "qualified") ∨ b = true) := by
    intro b
    unfold tagQualified
    cases b <;> simp
  have hopen : ∀ b : Bool, renderOpenTag ef f b tns nm [] =
      (if tagQualified ef f b then "<" ++ tns ++ ":" ++ pyStrip nm ++ ">"
       else "<" ++ pyStrip nm ++ ">") := by
    intro b
    unfold renderOpenTag
    cases h : tagQualified ef f b <;> simp [h]
  have hclose : ∀ b : Bool, renderCloseTag ef f b tns nm =
      (if tagQualified ef f b then "</" ++ tns ++ ":" ++ pyStrip nm ++ ">\n"
       else "</" ++ pyStrip nm ++ ">\n") := by
    intro b
    unfold renderCloseTag
    cases h : tagQualified ef f b <;> simp [h]
  refine ⟨hq tl, hopen tl, hclose tl, ?_⟩
  intro hef
  have hfalse : tagQualified ef f false = false := by
    subst hef
    unfold tagQualified
    simp
  have htrue : tagQualified ef f true = true := by
    unfold tagQualified
    simp
  refine ⟨?_, ?_, ?_⟩
  · rw [hopen true, htrue]
    rfl
  · rw [hopen false, hfalse]
    rfl
  · rw [hclose false, hfalse]
    rfl

/-- C3 witness: the end-to-end fixture shape — `elementFormDefault`
unqualified, top-level `getBank` prefixed with `tns:`, nested child `blz`
unprefixed. -/
theorem c3_tag_qualification_witness :
    renderOpenTag "unqualified" "qualified" true "tns" "getBank" [] =
      "<tns:getBank>" ∧
    renderOpenTag "unqualified" "qualified" false "tns" "blz" [] = "<blz>" ∧
    renderCloseTag "unqualified" "qualified" false "tns" "blz" = "</blz>\n" := by
  obtain ⟨h1, h2, h3⟩ :=
    (c3_tag_qualification "unqualified" "qualified" true "tns" "getBank").2.2.2
      rfl
  obtain ⟨g1, g2, g3⟩ :=
    (c3_tag_qualification "unqualified" "qualified" true "tns" "blz").2.2.2 rfl
  refine ⟨h1.trans (by decide), g2.trans (by decide), g3.trans (by decide)⟩

/-- C6 counterexample: an Extension with two literal children `[c1, c2]`
and base type `B` yields `[c1, B, c2]` — the base is spliced in before the
last literal child, not prepended before all of them as the claim
states. -/
theorem c6_extension_prepend_counterexample :
    extensionChildren [("B", STree.cont 5 [])] (some "B")
        [some (STree.cont 1 []), some (STree.cont 2 [])] =
      some [some (STree.cont 1 []), some (STree.cont 5 []),
        some (STree.cont 2 [])] ∧
    some [some (STree.cont 1 []), some (STree.cont 5 []),
        some (STree.cont 2 [])] ≠
      some ([some (STree.cont 5 [])] ++
        [some (STree.cont 1 []), some (STree.cont 2 [])]) := by
  refine ⟨rfl, ?_⟩
  intro h
  simp only [List.cons_append, List.nil_append, Option.some.injEq,
    List.cons.injEq, Option.some.injEq, STree.cont.injEq] at h
  omega

/-- C6 (amended): an Extension's children splice the base type's resolved
node in immediately before the last literal child — which is prepending
exactly when there is a single literal child — and with no literal child
the computation fails (the splice index is never bound); a Restriction's
children are exclusively the base type's resolved node, ignoring literal
children. -/
theorem c6_extension_restriction_children (env : Env) (b : String)
    (s : List (Option STree)) (h : s ≠ []) :
    extensionChildren env (some b) s =
      some (s.take (s.length - 1) ++ [softLookup env b] ++
        s.drop (s.length - 1)) ∧
    (∀ x, s = [x] →
      extensionChildren env (some b) s = some (softLookup env b :: s)) ∧
    extensionChildren env (some b) [] = none ∧
    restrictionChildren env (some b) = [softLookup env b] ∧
    restrictionChildren env none = [] := by
  refine ⟨?_, ?_, rfl, rfl, rfl⟩
  · cases s with
    | nil => exact absurd rfl h
    | cons x rest => rfl
  · rintro x rfl
    rfl

/-- C6 witness: with exactly one literal child the base type is
prepended. -/
theorem c6_extension_restriction_children_witness :
    ([some (STree.cont 1 [])] : List (Option STree)) ≠ [] ∧
    extensionChildren [("B", STree.cont 5 [])] (some "B")
        [some (STree.cont 1 [])] =
      some (softLookup [("B", STree.cont 5 [])] "B" :: [some (STree.cont 1 [])]) :=
  ⟨by simp,
    (c6_extension_restriction_children [("B", STree.cont 5 [])] "B"
      [some (STree.cont 1 [])] (by simp)).2.1 _ rfl⟩

/-- C9 counterexample: a 302 (non-2xx but below 400) XML response with an
output present and no faults — `Response.__bool__` evaluates to `true`
(`requests.Response.ok` is `status < 400`), although the claim's failure
condition ("non-2xx HTTP status") holds, so the claimed "false exactly
when" equivalence fails at this input. -/
theorem c9_non2xx_truthiness_counterexample :
    responseBool 302 (some "text/xml") [] 1 = true ∧
    claimCallFailed 302 (some "text/xml") [] 1 = true := by
  exact ⟨by decide, by decide⟩

/-- C9 (amended): the Response's boolean evaluation is false exactly when
the HTTP status is 400 or above, or the content type is not XML, or some
declared fault element is present and non-empty, or no expected output
element was found; and slicing the response never raises on missing
elements — the resulting tuple is simply no longer than the declared part
list. -/
theorem c9_response_truthiness (s : Nat) (ct : Option String)
    (faults : List Bool) (outs : Nat) :
    (responseBool s ct faults outs = false ↔
      (400 ≤ s ∨ responseIsXml ct = false ∨ (∃ f ∈ faults, f = false) ∨
        outs = 0)) ∧
    (∀ (declared : List String) (present : List (String × Bool)),
      (sliceParts declared present).length ≤ declared.length) := by
  constructor
  · unfold responseBool
    split_ifs with h1 h2 h3 h4
    · simp only [respOk, Bool.not_eq_true', decide_eq_false_iff_not,
        Nat.not_lt] at h1
      simp [h1]
    · simp only [Bool.not_eq_true'] at h2
      simp [h2]
    · simp only [Bool.and_self, List.any_eq_true, Bool.not_eq_true'] at h3
      obtain ⟨f, hf, hfe⟩ := h3
      constructor
      · intro _
        exact Or.inr (Or.inr (Or.inl ⟨f, hf, hfe⟩))
      · intro _
        rfl
    · simp only [beq_iff_eq] at h4
      simp [h4]
    · simp only [respOk, Bool.not_eq_true', decide_eq_false_iff_not,
        Nat.not_lt] at h1
      simp only [Bool.not_eq_true'] at h2
      simp only [Bool.and_self, List.any_eq_true, Bool.not_eq_true',
        not_exists] at h3
      simp only [beq_iff_eq] at h4
      push_neg at h3
      constructor
      · intro hcontra
        exact hcontra.elim
      · rintro (ha | hb | ⟨f, hf, hfe⟩ | hd)
        · omega
        · rw [hb] at h2
          exact absurd rfl h2
        · exact absurd hfe (h3 f hf)
        · exact absurd hd h4
  · intro declared present
    exact List.length_filterMap_le _ _

/-! Helper lemmas for C7. -/

/-- Folding the iter-value accumulation from any prefix appends the
spec-side rendering. -/
theorem processIterValues_foldl (openTag closeTag : String)
    (vs : List String) :
    ∀ acc : String,
      vs.foldl (fun a v => a ++ openTag ++ saxEscape v ++ closeTag) acc =
        acc ++ repeatableXmlSpec openTag closeTag vs := by
  induction vs with
  | nil =>
    intro acc
    simp [repeatableXmlSpec]
  | cons v vs ih =>
    intro acc
    simp only [List.foldl_cons, repeatableXmlSpec]
    rw [ih]
    simp [String.append_assoc]

/-- `popAll` fails exactly when some per-key list is already empty. -/
theorem popAll_eq_none_iff (coll : List (String × List String)) :
    popAll coll = none ↔ ∃ p ∈ coll, p.2 = [] := by
  induction coll with
  | nil => simp [popAll]
  | cons hd rest ih =>
    obtain ⟨k, vs⟩ := hd
    cases hv : vs.getLast? with
    | none =>
      have hnil : vs = [] := List.getLast?_eq_none_iff.mp hv
      subst hnil
      simp only [popAll, List.getLast?_nil]
      constructor
      · intro _
        exact ⟨(k, []), by simp, rfl⟩
      · intro _
        trivial
    | some v =>
      have hvs : vs ≠ [] := by
        intro hcon
        rw [hcon] at hv
        simp at hv
      cases hp : popAll rest with
      | none =>
        simp only [popAll, hv, hp]
        obtain ⟨p, hpmem, hpe⟩ := ih.mp hp
        constructor
        · intro _
          exact ⟨p, by simp [hpmem], hpe⟩
        · intro _
          trivial
      | some pr =>
        simp only [popAll, hv, hp]
        have hrest : ¬ ∃ p ∈ rest, p.2 = [] := by
          intro hex
          rw [ih.mpr hex] at hp
          exact Option.noConfusion hp
        constructor
        · intro habs
          exact Option.noConfusion habs
        · rintro ⟨p, hpm, hpe⟩
          rcases List.mem_cons.mp hpm with heq | hmem
          · subst heq
            exact absurd hpe hvs
          · exact absurd ⟨p, hmem, hpe⟩ hrest

/-- On all-nonempty lists, `popAll` pops the last element of every list. -/
theorem popAll_of_nonempty (coll : List (String × List String))
    (h : ∀ p ∈ coll, p.2 ≠ []) :
    popAll coll =
      some (coll.map (fun p => (p.1, p.2.getLastD "")),
        coll.map (fun p => (p.1, p.2.dropLast))) := by
  induction coll with
  | nil => rfl
  | cons hd rest ih =>
    obtain ⟨k, vs⟩ := hd
    have hvs : vs ≠ [] := h (k, vs) (by simp)
    have hlast : vs.getLast? = some (vs.getLastD "") := by
      rw [List.getLastD_eq_getLast?]
      cases hv : vs.getLast? with
      | none => exact absurd (List.getLast?_eq_none_iff.mp hv) hvs
      | some v => rfl
    unfold popAll
    rw [hlast, ih (fun p hp => h p (by simp [hp]))]
    rfl

/-- The min-fold is bounded by its initial accumulator. -/
theorem foldlMin_le_init (rest : List (String × List String)) :
    ∀ acc : Nat, rest.foldl (fun a p => min a p.2.length) acc ≤ acc := by
  induction rest with
  | nil =>
    intro acc
    exact Nat.le_refl acc
  | cons hd tl ih =>
    intro acc
    exact Nat.le_trans (ih _) (Nat.min_le_left _ _)

/-- The min-fold is bounded by every member's length. -/
theorem foldlMin_le_mem (rest : List (String × List String)) :
    ∀ (acc : Nat) (p : String × List String), p ∈ rest →
      rest.foldl (fun a p => min a p.2.length) acc ≤ p.2.length := by
  induction rest with
  | nil =>
    intro acc p hp
    exact absurd hp (List.not_mem_nil p)
  | cons hd tl ih =>
    intro acc p hp
    rcases List.mem_cons.mp hp with heq | hmem
    · subst heq
      exact Nat.le_trans (foldlMin_le_init tl _) (Nat.min_le_right _ _)
    · exact ih _ p hmem

/-- The min-fold is above any common lower bound. -/
theorem le_foldlMin (rest : List (String × List String)) :
    ∀ (acc k : Nat), k ≤ acc → (∀ p ∈ rest, k ≤ p.2.length) →
      k ≤ rest.foldl (fun a p => min a p.2.length) acc := by
  induction rest with
  | nil =>
    intro acc k hk _
    exact hk
  | cons hd tl ih =>
    intro acc k hk hall
    exact ih _ k (Nat.le_min.mpr ⟨hk, hall hd (by simp)⟩)
      (fun p hp => hall p (by simp [hp]))

/-- Popping one element off every list decrements the collection's minimum
length by one. -/
theorem foldlMin_dropLast (rest : List (String × List String)) :
    ∀ acc : Nat, 1 ≤ acc → (∀ p ∈ rest, 1 ≤ p.2.length) →
      (rest.map (fun p => (p.1, p.2.dropLast))).foldl
          (fun a p => min a p.2.length) (acc - 1) =
        rest.foldl (fun a p => min a p.2.length) acc - 1 := by
  induction rest with
  | nil =>
    intro acc _ _
    rfl
  | cons hd tl ih =>
    intro acc hacc hall
    have hhd : 1 ≤ hd.2.length := hall hd (by simp)
    simp only [List.map_cons, List.foldl_cons, List.length_dropLast]
    have hmin : min (acc - 1) (hd.2.length - 1) = min acc hd.2.length - 1 := by
      omega
    rw [hmin]
    exact ih _ (by omega) (fun p hp => hall p (by simp [hp]))

/-- One unfolding step of the collection loop. -/
theorem collectionRoundsAux_succ (n : Nat)
    (coll : List (String × List String)) :
    collectionRoundsAux (n + 1) coll =
      match popAll coll with
      | none => []
      | some (g, coll') => g :: collectionRoundsAux n coll' := rfl

/-- The collection loop runs exactly `collMinLen` rounds when given enough
fuel. -/
theorem collectionRoundsAux_length :
    ∀ (fuel : Nat) (first : String × List String)
      (rest : List (String × List String)),
      collMinLen first rest < fuel →
      (collectionRoundsAux fuel (first :: rest)).length =
        collMinLen first rest := by
  intro fuel
  induction fuel with
  | zero =>
    intro first rest h
    exact absurd h (Nat.not_lt_zero _)
  | succ n ih =>
    intro first rest h
    by_cases hne : ∀ p ∈ first :: rest, p.2 ≠ []
    · have hone : ∀ p ∈ first :: rest, 1 ≤ p.2.length := by
        intro p hp
        have := hne p hp
        cases hl : p.2 with
        | nil => exact absurd hl this
        | cons a b => simp [hl]
      have hmin1 : 1 ≤ collMinLen first rest := by
        unfold collMinLen
        exact le_foldlMin rest _ 1 (hone first (by simp))
          (fun p hp => hone p (by simp [hp]))
      have hstep : collectionRoundsAux (n + 1) (first :: rest) =
          ((first :: rest).map (fun p => (p.1, p.2.getLastD ""))) ::
            collectionRoundsAux n
              ((first :: rest).map (fun p => (p.1, p.2.dropLast))) := by
        rw [collectionRoundsAux_succ, popAll_of_nonempty _ hne]
      rw [hstep]
      simp only [List.map_cons, List.length_cons]
      have hdrop : collMinLen (first.1, first.2.dropLast)
          (rest.map (fun p => (p.1, p.2.dropLast))) =
            collMinLen first rest - 1 := by
        unfold collMinLen
        simp only [List.length_dropLast]
        exact foldlMin_dropLast rest first.2.length (hone first (by simp))
          (fun p hp => hone p (by simp [hp]))
      rw [ih (first.1, first.2.dropLast) (rest.map (fun p => (p.1, p.2.dropLast)))
        (by rw [hdrop]; omega)]
      rw [hdrop]
      omega
    · push_neg at hne
      obtain ⟨p, hpmem, hpe⟩ := hne
      have hmin0 : collMinLen first rest = 0 := by
        have hle : collMinLen first rest ≤ p.2.length := by
          unfold collMinLen
          rcases List.mem_cons.mp hpmem with heq | hmem
          · subst heq
            exact foldlMin_le_init rest _
          · exact foldlMin_le_mem rest _ p hmem
        rw [hpe] at hle
        simpa using hle
      have hpop : popAll (first :: rest) = none :=
        (popAll_eq_none_iff _).mpr ⟨p, hpmem, hpe⟩
      unfold collectionRoundsAux
      rw [hpop, hmin0]
      rfl

/-- Round `j` of the collection loop pairs, for every key, the value at
the same source index `n - 1 - j` (the loop pops from the end of each
list, in lock-step). -/
theorem collectionRoundsAux_pairing :
    ∀ (n : Nat) (first : String × List String)
      (rest : List (String × List String)),
      (∀ p ∈ first :: rest, p.2.length = n) →
      ∀ j, j < n →
        (collectionRoundsAux (n + 1) (first :: rest))[j]? =
          some ((first :: rest).map
            (fun p => (p.1, p.2.getD (n - 1 - j) ""))) := by
  intro n
  induction n with
  | zero =>
    intro first rest _ j hj
    exact absurd hj (Nat.not_lt_zero _)
  | succ n ih =>
    intro first rest hlen j hj
    have hne : ∀ p ∈ first :: rest, p.2 ≠ [] := by
      intro p hp hcon
      have := hlen p hp
      rw [hcon] at this
      simp at this
    have hstep : collectionRoundsAux (n + 1 + 1) (first :: rest) =
        ((first :: rest).map (fun p => (p.1, p.2.getLastD ""))) ::
          collectionRoundsAux (n + 1)
            ((first :: rest).map (fun p => (p.1, p.2.dropLast))) := by
      rw [collectionRoundsAux_succ, popAll_of_nonempty _ hne]
    rw [hstep]
    cases j with
    | zero =>
      simp only [List.getElem?_cons_zero, Option.some.injEq]
      apply List.map_congr_left
      intro p hp
      have hplen : p.2.length = n + 1 := hlen p hp
      have : p.2.getLastD "" = p.2.getD (n + 1 - 1 - 0) "" := by
        rw [List.getLastD_eq_getLast?, List.getLast?_eq_getElem?,
          List.getD_eq_getElem?_getD, hplen]
        simp
      rw [this]
    | succ j' =>
      simp only [List.getElem?_cons_succ]
      have hlen' : ∀ p ∈ ((first :: rest).map
          (fun p => (p.1, p.2.dropLast))), p.2.length = n := by
        intro p hp
        obtain ⟨q, hq, rfl⟩ := List.mem_map.mp hp
        simp only [List.length_dropLast, hlen q hq]
        omega
      have hj' : j' < n := by omega
      have hreq := ih (first.1, first.2.dropLast)
        (rest.map (fun p => (p.1, p.2.dropLast)))
        (by
          intro p hp
          exact hlen' p (by simpa using hp))
        j' hj'
      simp only [List.map_cons] at hreq ⊢
      rw [hreq]
      simp only [Option.some.injEq, List.map_map]
      have hdval : ∀ p : String × List String, p ∈ first :: rest →
          (p.2.dropLast).getD (n - 1 - j') "" =
            p.2.getD (n + 1 - 1 - (j' + 1)) "" := by
        intro p hp
        have hplen : p.2.length = n + 1 := hlen p hp
        have hidx : n + 1 - 1 - (j' + 1) = n - 1 - j' := by omega
        rw [hidx, List.getD_eq_getElem?_getD, List.getD_eq_getElem?_getD,
          List.getElem?_dropLast, hplen]
        have hlt : n - 1 - j' < n := by omega
        simp only [Nat.add_sub_cancel, hlt, if_true]
      rw [hdval first (by simp)]
      congr 1
      apply List.map_congr_left
      intro p hp
      simp only [Function.comp]
      rw [hdval p (by simp [hp])]

/-- C7: a Repeatable element with an iterable value renders one sibling
tag per value, sharing the tag pair, in iteration order, each escaped
(`_process_iter_values` equals the claim-side rendering); a Collection's
lock-step loop emits exactly one child-element group per parallel index —
stopping when any per-key list is exhausted (`collMinLen` rounds) — and,
for equal-length per-key lists, the group at position `j` draws every
key's value from the same source index `n - 1 - j`, so the i-th name is
always paired with the i-th value. -/
theorem c7_repeatable_collection_laws (openTag closeTag : String)
    (vs : List String) (first : String × List String)
    (rest : List (String × List String)) :
    processIterValues openTag closeTag vs =
      repeatableXmlSpec openTag closeTag vs ∧
    (collMinLen first rest ≤ first.2.length →
      (collectionRounds first rest).length = collMinLen first rest) ∧
    (∀ n, (∀ p ∈ first :: rest, p.2.length = n) →
      ∀ j, j < n →
        (collectionRounds first rest)[j]? =
          some ((first :: rest).map
            (fun p => (p.1, p.2.getD (n - 1 - j) "")))) := by
  refine ⟨?_, ?_, ?_⟩
  · unfold processIterValues
    rw [processIterValues_foldl]
    simp
  · intro hle
    unfold collectionRounds
    exact collectionRoundsAux_length (first.2.length + 1) first rest
      (by omega)
  · intro n hlen j hj
    unfold collectionRounds
    have hfirst : first.2.length = n := hlen first (by simp)
    rw [hfirst]
    exact collectionRoundsAux_pairing n first rest hlen j hj

/-- C7 witness: parallel name/value lists of length two render two
groups; the group at each position pairs the name and value drawn from
the same index, and a Repeatable's two values render as two sibling
escaped tags. -/
theorem c7_repeatable_collection_laws_witness :
    (∀ p ∈ (("name", ["Foo", "Baz"]) :: [("value", ["Bar", "Bang"])]),
      p.2.length = 2) ∧
    (collectionRounds ("name", ["Foo", "Baz"]) [("value", ["Bar", "Bang"])])[0]? =
      some ((("name", ["Foo", "Baz"]) :: [("value", ["Bar", "Bang"])]).map
        (fun p => (p.1, p.2.getD (2 - 1 - 0) ""))) ∧
    (collectionRounds ("name", ["Foo", "Baz"]) [("value", ["Bar", "Bang"])])[1]? =
      some [("name", "Foo"), ("value", "Bar")] ∧
    processIterValues "<t>" "</t>" ["a", "b&c"] =
      repeatableXmlSpec "<t>" "</t>" ["a", "b&c"] ∧
    repeatableXmlSpec "<t>" "</t>" ["a", "b&c"] =
      "<t>a</t><t>b&amp;c</t>" := by
  refine ⟨by decide, ?_, ?_, ?_, by decide⟩
  · exact (c7_repeatable_collection_laws "<t>" "</t>" []
      ("name", ["Foo", "Baz"]) [("value", ["Bar", "Bang"])]).2.2 2
      (by decide) 0 (by decide)
  · exact ((c7_repeatable_collection_laws "<t>" "</t>" []
      ("name", ["Foo", "Baz"]) [("value", ["Bar", "Bang"])]).2.2 2
      (by decide) 1 (by decide)).trans (by decide)
  · exact (c7_repeatable_collection_laws "<t>" "</t>" ["a", "b&c"]
      ("name", ["Foo", "Baz"]) [("value", ["Bar", "Bang"])]).1

/-! Helper lemmas for C4. -/

/-- Every node has positive size. -/
theorem STree.size_pos (t : STree) : 1 ≤ STree.size t := by
  cases t <;> simp [STree.size]

/-- A member's size is bounded by the list's total size. -/
theorem STree.size_mem_le {t : STree} :
    ∀ {l : List STree}, t ∈ l → STree.size t ≤ STree.sizeList l := by
  intro l h
  induction l with
  | nil => cases h
  | cons c rest ih =>
    rcases List.mem_cons.mp h with heq | hm
    · subst heq
      simp [STree.sizeList]
    · have := ih hm
      simp only [STree.sizeList]
      omega

/-- A member's tags are among the list's tags. -/
theorem STree.tags_mem_sub {t : STree} {x : Nat} :
    ∀ {l : List STree}, t ∈ l → x ∈ STree.tags t → x ∈ STree.tagsList l := by
  intro l h hx
  induction l with
  | nil => cases h
  | cons c rest ih =>
    rcases List.mem_cons.mp h with heq | hm
    · subst heq
      simp only [STree.tagsList, List.mem_append]
      exact Or.inl hx
    · simp only [STree.tagsList, List.mem_append]
      exact Or.inr (ih hm)

/-- A node's own tag is among its tags. -/
theorem STree.tag_mem_tags (t : STree) : t.tag ∈ STree.tags t := by
  cases t <;> simp [STree.tags, STree.tag]

/-- The tags of a node's child list are among the node's tags. -/
theorem STree.tagsList_sub_elem {x tag : Nat} {tref : Option String}
    {kids : List STree} (h : x ∈ STree.tagsList kids) :
    x ∈ STree.tags (STree.elem tag tref kids) := by
  simp only [STree.tags, List.mem_cons]
  exact Or.inr h

/-- The tags of a container's child list are among the container's tags. -/
theorem STree.tagsList_sub_cont {x tag : Nat} {kids : List STree}
    (h : x ∈ STree.tagsList kids) :
    x ∈ STree.tags (STree.cont tag kids) := by
  simp only [STree.tags, List.mem_cons]
  exact Or.inr h

/-- `processEC` on the empty child list. -/
theorem processEC_nil (selfTag : Nat) (parents : List Nat) :
    processEC selfTag parents [] = ([], parents) := by
  simp [processEC]

/-- `processEC` on an element child. -/
theorem processEC_cons_elem (selfTag : Nat) (parents : List Nat)
    (t : Nat) (tref : Option String) (kids rest : List STree) :
    processEC selfTag parents (STree.elem t tref kids :: rest) =
      ((if parents.contains t then [] else [STree.elem t tref kids]) ++
        (processEC selfTag parents rest).fst,
        (processEC selfTag parents rest).snd) := by
  simp [processEC]

/-- `processEC` on a container child. -/
theorem processEC_cons_cont (selfTag : Nat) (parents : List Nat)
    (t : Nat) (kids rest : List STree) :
    processEC selfTag parents (STree.cont t kids :: rest) =
      ((processEC t (parents ++ [selfTag]) kids).fst ++
        (processEC selfTag
          (processEC t (parents ++ [selfTag]) kids).snd rest).fst,
        (processEC selfTag
          (processEC t (parents ++ [selfTag]) kids).snd rest).snd) := by
  simp [processEC]

/-- The threaded visited list only ever grows (Python appends in place). -/
theorem processEC_parents_prefix :
    ∀ (N : Nat) (selfTag : Nat) (parents : List Nat) (l : List STree),
      STree.sizeList l ≤ N →
      ∃ ext, (processEC selfTag parents l).snd = parents ++ ext := by
  intro N
  induction N with
  | zero =>
    intro selfTag parents l hN
    match l with
    | [] => exact ⟨[], by rw [processEC_nil]; simp⟩
    | c :: rest =>
      have h1 := STree.size_pos c
      simp only [STree.sizeList] at hN
      omega
  | succ N ih =>
    intro selfTag parents l hN
    match l with
    | [] => exact ⟨[], by rw [processEC_nil]; simp⟩
    | STree.elem t tref kids :: rest =>
      have hrest : STree.sizeList rest ≤ N := by
        have h1 := STree.size_pos (STree.elem t tref kids)
        simp only [STree.sizeList] at hN
        omega
      obtain ⟨ext, hext⟩ := ih selfTag parents rest hrest
      exact ⟨ext, by rw [processEC_cons_elem]; exact hext⟩
    | STree.cont t kids :: rest =>
      have hsz : STree.size (STree.cont t kids) = 1 + STree.sizeList kids := by
        simp [STree.size]
      have hkids : STree.sizeList kids ≤ N := by
        simp only [STree.sizeList] at hN
        omega
      have hrest : STree.sizeList rest ≤ N := by
        simp only [STree.sizeList] at hN
        have h1 := STree.size_pos (STree.cont t kids)
        omega
      obtain ⟨e1, he1⟩ := ih t (parents ++ [selfTag]) kids hkids
      obtain ⟨e2, he2⟩ := ih selfTag
        ((processEC t (parents ++ [selfTag]) kids).snd) rest hrest
      refine ⟨[selfTag] ++ e1 ++ e2, ?_⟩
      rw [processEC_cons_cont]
      rw [he2, he1]
      simp [List.append_assoc]

/-- C4 guard 1: an element whose underlying tag is already on the visited
stack is excluded from the flattened child list. -/
theorem processEC_excludes :
    ∀ (N : Nat) (selfTag : Nat) (parents : List Nat) (l : List STree),
      STree.sizeList l ≤ N →
      ∀ c ∈ (processEC selfTag parents l).fst, c.tag ∉ parents := by
  intro N
  induction N with
  | zero =>
    intro selfTag parents l hN c hc
    match l with
    | [] =>
      rw [processEC_nil] at hc
      cases hc
    | d :: rest =>
      have h1 := STree.size_pos d
      simp only [STree.sizeList] at hN
      omega
  | succ N ih =>
    intro selfTag parents l hN c hc
    match l with
    | [] =>
      rw [processEC_nil] at hc
      cases hc
    | STree.elem t tref kids :: rest =>
      have hrest : STree.sizeList rest ≤ N := by
        have h1 := STree.size_pos (STree.elem t tref kids)
        simp only [STree.sizeList] at hN
        omega
      rw [processEC_cons_elem] at hc
      simp only [List.mem_append] at hc
      rcases hc with h1 | h2
      · by_cases hp : parents.contains t
        · rw [if_pos hp] at h1
          cases h1
        · rw [if_neg hp] at h1
          have heq : c = STree.elem t tref kids := by
            simpa using h1
          rw [heq]
          simpa [STree.tag] using hp
      · exact ih selfTag parents rest hrest c h2
    | STree.cont t kids :: rest =>
      have hkids : STree.sizeList kids ≤ N := by
        have hsz : STree.size (STree.cont t kids) =
            1 + STree.sizeList kids := by
          simp [STree.size]
        simp only [STree.sizeList] at hN
        omega
      have hrest : STree.sizeList rest ≤ N := by
        have h1 := STree.size_pos (STree.cont t kids)
        simp only [STree.sizeList] at hN
        omega
      rw [processEC_cons_cont] at hc
      simp only [List.mem_append] at hc
      rcases hc with h1 | h2
      · have := ih t (parents ++ [selfTag]) kids hkids c h1
        intro hmem
        exact this (List.mem_append.mpr (Or.inl hmem))
      · have hpre := processEC_parents_prefix (STree.sizeList kids) t
          (parents ++ [selfTag]) kids (Nat.le_refl _)
        obtain ⟨ext, hext⟩ := hpre
        have := ih selfTag ((processEC t (parents ++ [selfTag]) kids).snd)
          rest hrest c h2
        rw [hext] at this
        intro hmem
        exact this (by simp [hmem])

/-- Every flattened result member comes from some tree in the input list,
with no larger size and no new tags. -/
theorem processEC_mem :
    ∀ (N : Nat) (selfTag : Nat) (parents : List Nat) (l : List STree),
      STree.sizeList l ≤ N →
      ∀ c ∈ (processEC selfTag parents l).fst,
        ∃ t ∈ l, STree.size c ≤ STree.size t ∧
          ∀ x ∈ STree.tags c, x ∈ STree.tags t := by
  intro N
  induction N with
  | zero =>
    intro selfTag parents l hN c hc
    match l with
    | [] =>
      rw [processEC_nil] at hc
      cases hc
    | d :: rest =>
      have h1 := STree.size_pos d
      simp only [STree.sizeList] at hN
      omega
  | succ N ih =>
    intro selfTag parents l hN c hc
    match l with
    | [] =>
      rw [processEC_nil] at hc
      cases hc
    | STree.elem t tref kids :: rest =>
      have hrest : STree.sizeList rest ≤ N := by
        have h1 := STree.size_pos (STree.elem t tref kids)
        simp only [STree.sizeList] at hN
        omega
      rw [processEC_cons_elem] at hc
      simp only [List.mem_append] at hc
      rcases hc with h1 | h2
      · by_cases hp : parents.contains t
        · rw [if_pos hp] at h1
          cases h1
        · rw [if_neg hp] at h1
          have heq : c = STree.elem t tref kids := by
            simpa using h1
          exact ⟨STree.elem t tref kids, by simp, by rw [heq],
            by rw [heq]; exact fun x hx => hx⟩
      · obtain ⟨t', ht', hsz, htags⟩ := ih selfTag parents rest hrest c h2
        exact ⟨t', by simp [ht'], hsz, htags⟩
    | STree.cont t kids :: rest =>
      have hkids : STree.sizeList kids ≤ N := by
        have hsz : STree.size (STree.cont t kids) =
            1 + STree.sizeList kids := by
          simp [STree.size]
        simp only [STree.sizeList] at hN
        omega
      have hrest : STree.sizeList rest ≤ N := by
        have h1 := STree.size_pos (STree.cont t kids)
        simp only [STree.sizeList] at hN
        omega
      rw [processEC_cons_cont] at hc
      simp only [List.mem_append] at hc
      rcases hc with h1 | h2
      · obtain ⟨t', ht', hsz, htags⟩ :=
          ih t (parents ++ [selfTag]) kids hkids c h1
        refine ⟨STree.cont t kids, by simp, ?_, ?_⟩
        · have h3 : STree.size t' ≤ STree.sizeList kids :=
            STree.size_mem_le ht'
          have h4 : STree.size (STree.cont t kids) =
              1 + STree.sizeList kids := by
            simp [STree.size]
          omega
        · intro x hx
          exact STree.tagsList_sub_cont (STree.tags_mem_sub ht' (htags x hx))
      · obtain ⟨t', ht', hsz, htags⟩ := ih selfTag
          ((processEC t (parents ++ [selfTag]) kids).snd) rest hrest c h2
        exact ⟨t', by simp [ht'], hsz, htags⟩

/-- Bumping a counter never increases the remaining budget. -/
theorem budget_bump_le (uni : List Nat) (cnt : Counters) (t : Nat) :
    budget uni (bumpCnt cnt t) ≤ budget uni cnt := by
  unfold budget
  apply List.sum_le_sum
  intro i _
  unfold bumpCnt
  by_cases h : i = t
  · subst h
    rw [if_pos rfl]
    omega
  · rw [if_neg h]

/-- Bumping a still-open counter of a universe tag strictly spends
budget. -/
theorem budget_bump_lt (uni : List Nat) (cnt : Counters) (t : Nat)
    (ht : t ∈ uni) (hlt : cnt t < 2) :
    budget uni (bumpCnt cnt t) < budget uni cnt := by
  unfold budget
  apply List.sum_lt_sum
  · intro i _
    unfold bumpCnt
    by_cases h : i = t
    · subst h
      rw [if_pos rfl]
      omega
    · rw [if_neg h]
  · refine ⟨t, ht, ?_⟩
    unfold bumpCnt
    rw [if_pos rfl]
    omega

/-- Every environment definition's size is within `envMaxSize`. -/
theorem envMaxSize_mem (env : Env) (p : String × STree) (hp : p ∈ env) :
    STree.size p.snd ≤ envMaxSize env := by
  induction env with
  | nil => cases hp
  | cons hd rest ih =>
    rcases List.mem_cons.mp hp with heq | hmem
    · subst heq
      unfold envMaxSize
      simp only [List.foldr_cons]
      exact Nat.le_max_left _ _
    · have := ih hmem
      unfold envMaxSize at this ⊢
      simp only [List.foldr_cons]
      exact Nat.le_trans this (Nat.le_max_right _ _)

/-- A successful soft lookup returns one of the environment's
definitions. -/
theorem softLookup_mem (env : Env) (t : String) (s : STree)
    (h : softLookup env t = some s) : ∃ p ∈ env, p.snd = s := by
  unfold softLookup at h
  cases hf : List.find? (fun p => p.fst == t) env with
  | none =>
    rw [hf] at h
    cases h
  | some p =>
    rw [hf] at h
    refine ⟨p, List.mem_of_find?_eq_some hf, ?_⟩
    simpa using h

/-- Unfolding `elemChildrenTrees` on an element with a resolvable type. -/
theorem elemChildrenTrees_elem_some (env : Env) (cnt : Counters) (tag : Nat)
    (tname : String) (kids : List STree) (s : STree)
    (hlk : softLookup env tname = some s) :
    elemChildrenTrees env cnt (STree.elem tag (some tname) kids) =
      ((if cnt tag < 2 then kids ++ [s] else kids), bumpCnt cnt tag) := by
  simp only [elemChildrenTrees]
  rw [hlk]

/-- Unfolding `elemChildrenTrees` on an element whose type does not
resolve. -/
theorem elemChildrenTrees_elem_miss (env : Env) (cnt : Counters) (tag : Nat)
    (tname : String) (kids : List STree)
    (hlk : softLookup env tname = none) :
    elemChildrenTrees env cnt (STree.elem tag (some tname) kids) =
      (kids, cnt) := by
  simp only [elemChildrenTrees]
  rw [hlk]

/-- C4 guard 2: once an element tag's reference counter has reached 2 the
soft-child lookup is not re-entered — the children are the literal ones
only. -/
theorem elemChildrenTrees_gate (env : Env) (cnt : Counters) (tag : Nat)
    (tref : Option String) (kids : List STree) (h : 2 ≤ cnt tag) :
    (elemChildrenTrees env cnt (STree.elem tag tref kids)).fst = kids := by
  cases tref with
  | none => rfl
  | some tname =>
    cases hlk : softLookup env tname with
    | none => rw [elemChildrenTrees_elem_miss env cnt tag tname kids hlk]
    | some s =>
      rw [elemChildrenTrees_elem_some env cnt tag tname kids s hlk]
      simp only
      rw [if_neg (by omega)]

/-- The one-step walk lemma: resolving and flattening a node's element
children keeps all tags inside the universe, never grows the budget, and
strictly decreases the extraction measure for every produced child. -/
theorem elementChildren_step (env : Env) (uni : List Nat) (cnt : Counters)
    (e : STree) (henv : envGood env uni) (he : treeGood uni e) :
    budget uni (elementChildren env cnt e).snd ≤ budget uni cnt ∧
    ∀ c ∈ (elementChildren env cnt e).fst,
      treeGood uni c ∧
      extMeasure uni env (elementChildren env cnt e).snd c <
        extMeasure uni env cnt e := by
  have hlit : ∀ (tag : Nat) (kids : List STree) (cnt1 : Counters),
      budget uni cnt1 ≤ budget uni cnt →
      STree.sizeList kids < STree.size e →
      (∀ x, x ∈ STree.tagsList kids → x ∈ STree.tags e) →
      ∀ c ∈ (processEC tag [tag] kids).fst,
        treeGood uni c ∧
        extMeasure uni env cnt1 c < extMeasure uni env cnt e := by
    intro tag kids cnt1 hb hsz htg c hc
    obtain ⟨t', ht', hsz', htags'⟩ :=
      processEC_mem (STree.sizeList kids) tag [tag] kids (Nat.le_refl _) c hc
    have hszc : STree.size c < STree.size e := by
      have := STree.size_mem_le ht'
      omega
    constructor
    · intro x hx
      exact he x (htg x (STree.tags_mem_sub ht' (htags' x hx)))
    · unfold extMeasure
      have hmul : budget uni cnt1 * (envMaxSize env + 1) ≤
          budget uni cnt * (envMaxSize env + 1) :=
        Nat.mul_le_mul_right _ hb
      omega
  cases e with
  | cont tag kids =>
    have hfst : (elementChildren env cnt (STree.cont tag kids)).fst =
        (processEC tag [tag] kids).fst := rfl
    have hsnd : (elementChildren env cnt (STree.cont tag kids)).snd = cnt :=
      rfl
    rw [hfst, hsnd]
    refine ⟨Nat.le_refl _, ?_⟩
    intro c hc
    exact hlit tag kids cnt (Nat.le_refl _)
      (by simp [STree.size]) (fun x hx => STree.tagsList_sub_cont hx) c hc
  | elem tag tref kids =>
    cases tref with
    | none =>
      have hfst : (elementChildren env cnt (STree.elem tag none kids)).fst =
          (processEC tag [tag] kids).fst := rfl
      have hsnd : (elementChildren env cnt (STree.elem tag none kids)).snd =
          cnt := rfl
      rw [hfst, hsnd]
      refine ⟨Nat.le_refl _, ?_⟩
      intro c hc
      exact hlit tag kids cnt (Nat.le_refl _)
        (by simp [STree.size]) (fun x hx => STree.tagsList_sub_elem hx) c hc
    | some tname =>
      cases hlk : softLookup env tname with
      | none =>
        have hpair : elemChildrenTrees env cnt
            (STree.elem tag (some tname) kids) = (kids, cnt) :=
          elemChildrenTrees_elem_miss env cnt tag tname kids hlk
        have hfst : (elementChildren env cnt
            (STree.elem tag (some tname) kids)).fst =
            (processEC tag [tag] kids).fst := by
          unfold elementChildren
          rw [hpair]
          rfl
        have hsnd : (elementChildren env cnt
            (STree.elem tag (some tname) kids)).snd = cnt := by
          unfold elementChildren
          rw [hpair]
        rw [hfst, hsnd]
        refine ⟨Nat.le_refl _, ?_⟩
        intro c hc
        exact hlit tag kids cnt (Nat.le_refl _)
          (by simp [STree.size]) (fun x hx => STree.tagsList_sub_elem hx) c hc
      | some s =>
        obtain ⟨p, hpmem, hps⟩ := softLookup_mem env tname s hlk
        have hstags : ∀ x ∈ STree.tags s, x ∈ uni := by
          intro x hx
          exact henv p hpmem x (by rw [hps]; exact hx)
        have hssize : STree.size s ≤ envMaxSize env := by
          have := envMaxSize_mem env p hpmem
          rw [hps] at this
          exact this
        by_cases hc2 : cnt tag < 2
        · have hpair : elemChildrenTrees env cnt
              (STree.elem tag (some tname) kids) =
              (kids ++ [s], bumpCnt cnt tag) := by
            rw [elemChildrenTrees_elem_some env cnt tag tname kids s hlk]
            rw [if_pos hc2]
          have hfst : (elementChildren env cnt
              (STree.elem tag (some tname) kids)).fst =
              (processEC tag [tag] (kids ++ [s])).fst := by
            unfold elementChildren
            rw [hpair]
            rfl
          have hsnd : (elementChildren env cnt
              (STree.elem tag (some tname) kids)).snd = bumpCnt cnt tag := by
            unfold elementChildren
            rw [hpair]
          rw [hfst, hsnd]
          have htag : tag ∈ uni :=
            he tag (STree.tag_mem_tags (STree.elem tag (some tname) kids))
          have hbdec : budget uni (bumpCnt cnt tag) < budget uni cnt :=
            budget_bump_lt uni cnt tag htag hc2
          refine ⟨Nat.le_of_lt hbdec, ?_⟩
          intro c hc
          obtain ⟨t', ht', hsz', htags'⟩ :=
            processEC_mem (STree.sizeList (kids ++ [s])) tag [tag]
              (kids ++ [s]) (Nat.le_refl _) c hc
          have hmulK : budget uni (bumpCnt cnt tag) * (envMaxSize env + 1) ≤
              budget uni cnt * (envMaxSize env + 1) :=
            Nat.mul_le_mul_right _ (Nat.le_of_lt hbdec)
          rcases List.mem_append.mp ht' with hkid | hs
          · constructor
            · intro x hx
              exact he x (STree.tagsList_sub_elem
                (STree.tags_mem_sub hkid (htags' x hx)))
            · unfold extMeasure
              have hszc : STree.size c <
                  STree.size (STree.elem tag (some tname) kids) := by
                have h1 := STree.size_mem_le hkid
                have h2 : STree.size (STree.elem tag (some tname) kids) =
                    1 + STree.sizeList kids := by
                  simp [STree.size]
                omega
              omega
          · have hts : t' = s := by
              simpa using hs
            constructor
            · intro x hx
              exact hstags x (hts ▸ htags' x hx)
            · unfold extMeasure
              have hszc : STree.size c < envMaxSize env + 1 := by
                rw [hts] at hsz'
                omega
              have hexp : (budget uni (bumpCnt cnt tag) + 1) *
                  (envMaxSize env + 1) =
                  budget uni (bumpCnt cnt tag) * (envMaxSize env + 1) +
                    (envMaxSize env + 1) := by
                ring
              have hmul : (budget uni (bumpCnt cnt tag) + 1) *
                  (envMaxSize env + 1) ≤
                  budget uni cnt * (envMaxSize env + 1) :=
                Nat.mul_le_mul_right _ hbdec
              omega
        · have hpair : elemChildrenTrees env cnt
              (STree.elem tag (some tname) kids) =
              (kids, bumpCnt cnt tag) := by
            rw [elemChildrenTrees_elem_some env cnt tag tname kids s hlk]
            rw [if_neg hc2]
          have hfst : (elementChildren env cnt
              (STree.elem tag (some tname) kids)).fst =
              (processEC tag [tag] kids).fst := by
            unfold elementChildren
            rw [hpair]
            rfl
          have hsnd : (elementChildren env cnt
              (STree.elem tag (some tname) kids)).snd = bumpCnt cnt tag := by
            unfold elementChildren
            rw [hpair]
          rw [hfst, hsnd]
          refine ⟨budget_bump_le uni cnt tag, ?_⟩
          intro c hc
          exact hlit tag kids (bumpCnt cnt tag) (budget_bump_le uni cnt tag)
            (by simp [STree.size]) (fun x hx => STree.tagsList_sub_elem hx) c hc

/-- `extractF` with no fuel. -/
theorem extractF_zero (env : Env) (cnt : Counters) (e : STree)
    (parent : Option STree) : extractF env 0 cnt e parent = none := by
  simp [extractF]

/-- One unfolding step of `extractF`. -/
theorem extractF_succ (env : Env) (fuel : Nat) (cnt : Counters) (e : STree)
    (parent : Option STree) :
    extractF env (fuel + 1) cnt e parent =
      match extractListF env fuel (elementChildren env cnt e).snd
          ((elementChildren env cnt e).fst.filter
            (fun c => c.tag != e.tag)) e with
      | none => none
      | some (rs, cnt2) => some ((e, parent) :: rs, cnt2) := by
  simp [extractF, elementChildren]

/-- `extractListF` on the empty list. -/
theorem extractListF_nil (env : Env) (fuel : Nat) (cnt : Counters)
    (parent : STree) : extractListF env fuel cnt [] parent = some ([], cnt) := by
  cases fuel <;> simp [extractListF]

/-- One unfolding step of `extractListF`. -/
theorem extractListF_cons (env : Env) (fuel : Nat) (cnt : Counters)
    (c : STree) (rest : List STree) (parent : STree) :
    extractListF env fuel cnt (c :: rest) parent =
      match extractF env fuel cnt c (some parent) with
      | none => none
      | some (r1, cnt1) =>
        match extractListF env fuel cnt1 rest parent with
        | none => none
        | some (r2, cnt2) => some (r1 ++ r2, cnt2) := by
  simp [extractListF]

/-- The extraction walk completes within any fuel exceeding its measure,
and only ever spends soft-lookup budget. -/
theorem extract_total (env : Env) (uni : List Nat) (henv : envGood env uni) :
    ∀ n : Nat,
      (∀ (cnt : Counters) (e : STree) (parent : Option STree),
        treeGood uni e → extMeasure uni env cnt e < n →
        ∃ r cnt2, extractF env n cnt e parent = some (r, cnt2) ∧
          budget uni cnt2 ≤ budget uni cnt) ∧
      (∀ (cnt : Counters) (l : List STree) (parent : STree),
        (∀ c ∈ l, treeGood uni c ∧ extMeasure uni env cnt c < n) →
        ∃ r cnt2, extractListF env n cnt l parent = some (r, cnt2) ∧
          budget uni cnt2 ≤ budget uni cnt) := by
  intro n
  induction n with
  | zero =>
    constructor
    · intro cnt e parent _ hm
      exact absurd hm (Nat.not_lt_zero _)
    · intro cnt l parent hl
      cases l with
      | nil => exact ⟨[], cnt, by rw [extractListF_nil], Nat.le_refl _⟩
      | cons c rest =>
        obtain ⟨_, hm⟩ := hl c (by simp)
        exact absurd hm (Nat.not_lt_zero _)
  | succ n ih =>
    obtain ⟨_, ihQ⟩ := ih
    have hP : ∀ (cnt : Counters) (e : STree) (parent : Option STree),
        treeGood uni e → extMeasure uni env cnt e < n + 1 →
        ∃ r cnt2, extractF env (n + 1) cnt e parent = some (r, cnt2) ∧
          budget uni cnt2 ≤ budget uni cnt := by
      intro cnt e parent he hm
      obtain ⟨hble, hstep⟩ := elementChildren_step env uni cnt e henv he
      have hkids : ∀ c ∈ (elementChildren env cnt e).fst.filter
          (fun c => c.tag != e.tag),
          treeGood uni c ∧
            extMeasure uni env (elementChildren env cnt e).snd c < n := by
        intro c hc
        have hc' : c ∈ (elementChildren env cnt e).fst :=
          List.mem_of_mem_filter hc
        obtain ⟨hg, hlt⟩ := hstep c hc'
        exact ⟨hg, by omega⟩
      obtain ⟨rs, cnt2, hsome, hb2⟩ :=
        ihQ (elementChildren env cnt e).snd
          ((elementChildren env cnt e).fst.filter (fun c => c.tag != e.tag))
          e hkids
      refine ⟨(e, parent) :: rs, cnt2, ?_, Nat.le_trans hb2 hble⟩
      rw [extractF_succ, hsome]
    refine ⟨hP, ?_⟩
    intro cnt l parent hl
    induction l generalizing cnt with
    | nil => exact ⟨[], cnt, by rw [extractListF_nil], Nat.le_refl _⟩
    | cons c rest ihl =>
      obtain ⟨hgc, hmc⟩ := hl c (by simp)
      obtain ⟨r1, cnt1, h1, hb1⟩ := hP cnt c (some parent) hgc hmc
      have hrest : ∀ d ∈ rest,
          treeGood uni d ∧ extMeasure uni env cnt1 d < n + 1 := by
        intro d hd
        obtain ⟨hgd, hmd⟩ := hl d (by simp [hd])
        refine ⟨hgd, ?_⟩
        unfold extMeasure at hmd ⊢
        have := Nat.mul_le_mul_right (envMaxSize env + 1) hb1
        omega
      obtain ⟨r2, cnt2, h2, hb2⟩ := ihl cnt1 hrest
      refine ⟨r1 ++ r2, cnt2, ?_, Nat.le_trans hb2 hb1⟩
      rw [extractListF_cons, h1]
      show (match extractListF env (n + 1) cnt1 rest parent with
        | none => none
        | some (r2, cnt2) => some (r1 ++ r2, cnt2)) = some (r1 ++ r2, cnt2)
      rw [h2]

/-- C4: on any schema type graph — cyclic ones included — the recursive
input-extraction walk over `element_children` terminates: an explicit fuel
bound (the extraction measure plus one) always suffices; an element whose
underlying tag is already on the visited-parents stack is excluded from
the flattened child list; and an element tag whose reference counter has
reached 2 does not re-enter the soft-child lookup through its `type`
attribute. -/
theorem c4_element_children_termination (env : Env) (uni : List Nat)
    (cnt : Counters) (e : STree) (parent : Option STree)
    (henv : envGood env uni) (he : treeGood uni e) :
    (∃ r cnt2,
      extractF env (extMeasure uni env cnt e + 1) cnt e parent =
        some (r, cnt2)) ∧
    (∀ (selfTag : Nat) (parents : List Nat) (l : List STree) (c : STree),
      c ∈ (processEC selfTag parents l).fst → c.tag ∉ parents) ∧
    (∀ (cnt' : Counters) (tag : Nat) (tref : Option String)
      (kids : List STree), 2 ≤ cnt' tag →
        (elemChildrenTrees env cnt' (STree.elem tag tref kids)).fst = kids) := by
  refine ⟨?_, ?_, ?_⟩
  · obtain ⟨r, cnt2, hsome, _⟩ :=
      ((extract_total env uni henv (extMeasure uni env cnt e + 1)).1)
        cnt e parent he (by omega)
    exact ⟨r, cnt2, hsome⟩
  · intro selfTag parents l c hc
    exact processEC_excludes (STree.sizeList l) selfTag parents l
      (Nat.le_refl _) c hc
  · intro cnt' tag tref kids h
    exact elemChildrenTrees_gate env cnt' tag tref kids h

/-- C4 witness: a directly self-referential type graph — the named type
`T` contains an element whose `type` is again `T` — extracted from a root
element of type `T`, terminates within the computed fuel bound. -/
theorem c4_element_children_termination_witness :
    envGood [("T", STree.cont 10 [STree.elem 11 (some "T") []])]
      [0, 10, 11] ∧
    treeGood [0, 10, 11] (STree.elem 0 (some "T") []) ∧
    ∃ r cnt2,
      extractF [("T", STree.cont 10 [STree.elem 11 (some "T") []])]
        (extMeasure [0, 10, 11]
          [("T", STree.cont 10 [STree.elem 11 (some "T") []])]
          (fun _ => 0) (STree.elem 0 (some "T") []) + 1)
        (fun _ => 0) (STree.elem 0 (some "T") []) none = some (r, cnt2) := by
  have henv : envGood [("T", STree.cont 10 [STree.elem 11 (some "T") []])]
      [0, 10, 11] := by
    intro p hp x hx
    have hpe : p = ("T", STree.cont 10 [STree.elem 11 (some "T") []]) := by
      simpa using hp
    rw [hpe] at hx
    simp only [STree.tags, STree.tagsList, List.append_nil,
      List.mem_cons, List.not_mem_nil, or_false] at hx
    rcases hx with h | h <;> simp [h]
  have he : treeGood [0, 10, 11] (STree.elem 0 (some "T") []) := by
    intro x hx
    simp only [STree.tags, STree.tagsList, List.mem_cons,
      List.not_mem_nil, or_false] at hx
    simp [hx]
  exact ⟨henv, he,
    (c4_element_children_termination
      [("T", STree.cont 10 [STree.elem 11 (some "T") []])] [0, 10, 11]
      (fun _ => 0) (STree.elem 0 (some "T") []) none henv he).1⟩

end Soapy
